import Mathlib

/-!
Verification of the DNS wire-format codec and query-handling logic of the
`ads-blocker` filtering DNS forwarder.

The C++ sources (`src/parser/parser.cpp`, `src/server/server.cpp`,
`include/parser/parser.hpp`, `include/common.hpp`) are shallowly embedded:
datagrams are `List Nat` of byte values, the shared decode cursor becomes
explicit state passing (`Nat` offsets in, `Nat` offsets out), `std::expected`
becomes `Except Error`, and the `while` loops of `Name::decode`,
`Name::encode` and `Listener::search` become fuel-indexed structural
recursions (`none` marks fuel exhaustion; adequacy of the chosen fuel is
proved where a claim needs it).  C++ bit operations on unsigned integers are
rendered with division/modulus: `(x >> k) & m` is `x / 2^k % (m+1)` and
`x & 0x3F` is `x % 64`, which agree with the source on all byte values.
-/

set_option maxRecDepth 10000

/-- Equality of `Except` results is decidable; this lets concrete runs of the
codec be checked by `decide`. -/
instance exceptDecEq {ε α : Type} [DecidableEq ε] [DecidableEq α] :
    DecidableEq (Except ε α)
  | .ok a, .ok b =>
    if h : a = b then .isTrue (by rw [h])
    else .isFalse (by intro hc; cases hc; exact h rfl)
  | .ok _, .error _ => .isFalse (by intro hc; cases hc)
  | .error _, .ok _ => .isFalse (by intro hc; cases hc)
  | .error e, .error e' =>
    if h : e = e' then .isTrue (by rw [h])
    else .isFalse (by intro hc; cases hc; exact h rfl)

/-- The `DNS::Error` enumeration from `include/common.hpp` (the members the
parser, encoder and matcher can produce). -/
inductive Error where
  | PARSE_TOO_SHORT
  | PARSE_BAD_OPCODE
  | PARSE_BAD_LABEL
  | PARSE_NAME_TOO_LONG
  | PARSE_PTR_LOOP
  | PARSE_PTR_OOB
  | PARSE_TRUNCATED
  | PARSE_BAD_QTYPE
  | PARSE_BAD_QCLASS
  | PARSE_BAD_QDCOUNT
  | ENCODE_NAME_TOO_LONG
  | ENCODE_LABEL_TOO_LONG
  | ENCODE_OVERFLOW
deriving DecidableEq, Repr

/-- Read the byte at index `i` (`data[i]` in C++; out-of-range reads never
happen on the paths we certify, `0` is the junk value of the model). -/
def byteAt (data : List Nat) (i : Nat) : Nat :=
  data.getD i 0

/-- Big-endian 16-bit read: `(data[i] << 8) | data[i+1]`. -/
def read16 (data : List Nat) (i : Nat) : Nat :=
  byteAt data i * 256 + byteAt data (i + 1)

/-- Big-endian 32-bit read used for the TTL field. -/
def read32 (data : List Nat) (i : Nat) : Nat :=
  byteAt data i * 16777216 + byteAt data (i + 1) * 65536 +
    byteAt data (i + 2) * 256 + byteAt data (i + 3)

/-- Big-endian 16-bit write: push `(v >> 8) & 0xFF` then `v & 0xFF`. -/
def write16 (v : Nat) : List Nat :=
  [v / 256 % 256, v % 256]

/-- Big-endian 32-bit write. -/
def write32 (v : Nat) : List Nat :=
  [v / 16777216 % 256, v / 65536 % 256, v / 256 % 256, v % 256]

/-- The body of the `while (true)` loop of `Name::decode`
(`parser.cpp:55-109`), one constructor application per loop iteration.

State: `pos` is the local reading offset, `jumped` records whether a
compression pointer was followed, `hops` is the pointer-hop guard, `off` is
the caller-visible offset (the C++ `offset` reference; on success the final
value is returned alongside the name), `acc` is the dotted name accumulated
so far (byte `46` is `'.'`).  `none` is returned only when the fuel runs
out; `nameDecodeLoop_isSome` shows the fuel used by `Name.decode` never
runs out. -/
def nameDecodeLoop : Nat → List Nat → Nat → Bool → Nat → Nat → List Nat →
    Option (Except Error (List Nat × Nat))
  | 0, _, _, _, _, _, _ => none
  | fuel + 1, data, pos, jumped, hops, off, acc =>
    if pos ≥ data.length then some (.error .PARSE_TRUNCATED)
    else
      -- uint8_t labelLen = data[pos]
      let labelLen := byteAt data pos
      if labelLen = 0 then
        -- end of name: advance the caller past the null byte unless jumped
        some (.ok (acc, if jumped then off else pos + 1))
      else if labelLen / 64 % 4 = 3 then
        -- (labelLen & COMPRESSION_MASK) == COMPRESSION_MASK
        if pos + 1 ≥ data.length then some (.error .PARSE_PTR_OOB)
        else
          -- ptr = ((labelLen & 0x3F) << 8) | data[pos + 1]
          let ptr := labelLen % 64 * 256 + byteAt data (pos + 1)
          if ptr ≥ data.length then some (.error .PARSE_PTR_OOB)
          else
            let off' := if jumped then off else pos + 2
            if hops + 1 > 20 then some (.error .PARSE_PTR_LOOP)
            else nameDecodeLoop fuel data ptr true (hops + 1) off' acc
      else if labelLen > 63 then some (.error .PARSE_BAD_LABEL)
      else if pos + 1 + labelLen > data.length then some (.error .PARSE_TRUNCATED)
      else
        let lbl := (data.drop (pos + 1)).take labelLen
        let acc' := if acc = [] then lbl else acc ++ 46 :: lbl
        if acc'.length > 255 then some (.error .PARSE_NAME_TOO_LONG)
        else nameDecodeLoop fuel data (pos + 1 + labelLen) jumped hops off acc'

/-- `Name::decode` (`parser.cpp:55-109`).  On success it returns the dotted
name together with the advanced caller-visible offset.  The fuel
`22 * (len + 2)` dominates the loop's variant
`(21 - hops) * (len + 1) + (len + 1 - pos)` (proved in
`nameDecodeLoop_isSome`), so the `getD` default is never taken. -/
def Name.decode (data : List Nat) (off : Nat) : Except Error (List Nat × Nat) :=
  (nameDecodeLoop (22 * (data.length + 2)) data off false 0 off []).getD
    (.error .PARSE_PTR_LOOP)

example : Name.decode [1, 97, 0] 0 = .ok ([97], 3) := by decide
example : Name.decode [3, 115, 117, 98, 3, 97, 100, 115, 0] 0 =
    .ok ([115, 117, 98, 46, 97, 100, 115], 9) := by decide
example : Name.decode [192, 0] 0 = .error .PARSE_PTR_LOOP := by decide
example : Name.decode [65, 0] 0 = .error .PARSE_BAD_LABEL := by decide
example : Name.decode [1, 97] 0 = .error .PARSE_TRUNCATED := by decide
example : Name.decode [192] 0 = .error .PARSE_PTR_OOB := by decide
example : Name.decode [0, 1, 97, 192, 0] 3 = .ok ([], 5) := by decide

/-- The compression table of `Name::encode`: dotted-name suffix ↦ absolute
datagram offset (`std::unordered_map<std::string, uint16_t>`, modelled as an
association list; keys are only ever inserted after a failed lookup, so the
map behaviour coincides). -/
abbrev Table : Type := List (List Nat × Nat)

/-- `table->find(key)` on the association list. -/
def tableFind (t : Table) (key : List Nat) : Option Nat :=
  match t with
  | [] => none
  | (k, v) :: rest => if k = key then some v else tableFind rest key

/-- `name.find('.', pos)` split: returns the label before the first `'.'`
(byte 46) and, when a dot exists, the remainder after it. -/
def splitFirstDot (s : List Nat) : List Nat × Option (List Nat) :=
  match s with
  | [] => ([], none)
  | c :: rest =>
    if c = 46 then ([], some rest)
    else
      let p := splitFirstDot rest
      (c :: p.1, p.2)

/-- The `while (true)` loop of `Name::encode` (`parser.cpp:7-54`), walking the
remaining dotted suffix.  `curOff = baseOffset + buf.size()` is the absolute
offset at which the next byte will land.  The returned `Bool` records whether
the name ended in a compression pointer (the C++ early `return buf;` that
bypasses the final length check).  `none` only on fuel exhaustion; the
wrapper's fuel `remaining.length + 1` always suffices because each iteration
strictly shortens `remaining`. -/
def nameEncodeLoop : Nat → List Nat → Option Table → Nat →
    Option (Except Error (List Nat × Option Table × Bool))
  | 0, _, _, _ => none
  | fuel + 1, remaining, table, curOff =>
    -- check compression table for this suffix
    let hit := match table with
      | some t => tableFind t remaining
      | none => none
    match hit with
    | some ptr =>
      -- emit 0xC0 | ((ptr >> 8) & 0x3F), then ptr & 0xFF
      some (.ok ([192 + ptr / 256 % 64, ptr % 256], table, true))
    | none =>
      -- register this suffix
      let table1 := match table with
        | some t => some ((remaining, curOff) :: t)
        | none => none
      match remaining with
      | [] => some (.ok ([0], table1, false))
      | _ =>
        let p := splitFirstDot remaining
        if p.1.length = 0 ∨ p.1.length > 63 then
          some (.error .ENCODE_LABEL_TOO_LONG)
        else
          match nameEncodeLoop fuel (p.2.getD []) table1 (curOff + 1 + p.1.length) with
          | none => none
          | some (.error e) => some (.error e)
          | some (.ok (bytes, tf, pt)) =>
            some (.ok (p.1.length :: (p.1 ++ bytes), tf, pt))

/-- `Name::encode` (`parser.cpp:7-54`): wire bytes of `name`, threading the
optional compression table.  The 255-byte wire check applies only when the
name did not end in a pointer, exactly as in the source. -/
def Name.encode (name : List Nat) (table : Option Table) (base : Nat) :
    Except Error (List Nat × Option Table) :=
  match nameEncodeLoop (name.length + 1) name table base with
  | none => .error .ENCODE_NAME_TOO_LONG
  | some (.error e) => .error e
  | some (.ok (buf, tf, pt)) =>
    if pt = false ∧ buf.length > 255 then .error .ENCODE_NAME_TOO_LONG
    else .ok (buf, tf)

/-- `r` is the part of `s` after some `'.'` — the suffixes at label
boundaries that `Listener::search` walks and `Name::encode` registers. -/
def SuffD (s r : List Nat) : Prop :=
  ∃ pre, s = pre ++ 46 :: r

/-- All suffixes of `s` that start right after a `'.'`, computably. -/
def dotSuffixes : List Nat → List (List Nat)
  | [] => []
  | c :: rest =>
    if c = 46 then rest :: dotSuffixes rest else dotSuffixes rest

/-- Reassemble a list of labels into a dotted name. -/
def dottedOf : List (List Nat) → List Nat
  | [] => []
  | [l] => l
  | l :: ls => l ++ 46 :: dottedOf ls

example : Name.encode [97, 46, 98, 99] none 0 = .ok ([1, 97, 2, 98, 99, 0], none) := by
  decide
example : Name.encode [] (some []) 12 = .ok ([0], some [([], 12)]) := by decide
example : Name.encode [97] (some [([], 24)]) 30 =
    .ok ([1, 97, 192, 24], some [([97], 30), ([], 24)]) := by decide
example : Name.encode [46, 97] none 0 = .error .ENCODE_LABEL_TOO_LONG := by decide

/-- The `DNS::Parser::Header` class (`parser.hpp:49-130`).  `opcode` and
`rcode` keep their raw 4-bit values (the C++ `enum class` casts are
value-preserving); the one-bit flags are `Bool` as in the source. -/
structure Header where
  id : Nat
  qr : Bool
  opcode : Nat
  aa : Bool
  tc : Bool
  rd : Bool
  ra : Bool
  ad : Bool
  cd : Bool
  rcode : Nat
  qdcount : Nat
  ancount : Nat
  nscount : Nat
  arcount : Nat
deriving DecidableEq, Repr

/-- `Header::getRawFlags` (`parser.hpp:49-64`): pack the flag word MSB-first,
QR(1) | opcode(4) | AA | TC | RD | RA | Z(=0) | AD | CD | RCODE(4). -/
def Header.getRawFlags (h : Header) : Nat :=
  h.qr.toNat * 32768 + h.opcode % 16 * 2048 + h.aa.toNat * 1024 +
    h.tc.toNat * 512 + h.rd.toNat * 256 + h.ra.toNat * 128 +
    h.ad.toNat * 32 + h.cd.toNat * 16 + h.rcode % 16

/-- `Header::encode` (`parser.cpp:294-311`): six big-endian 16-bit writes.
The C++ return type is `std::expected` but no error path exists, so the
embedding returns the 12 bytes directly. -/
def Header.encode (h : Header) : List Nat :=
  write16 h.id ++ write16 h.getRawFlags ++ write16 h.qdcount ++
    write16 h.ancount ++ write16 h.nscount ++ write16 h.arcount

/-- `Header::decode` (`parser.cpp:312-379`), checks in source order: length,
Z bit, opcode whitelist, query-side AA/RA, QDCOUNT, section-count caps. -/
def Header.decode (data : List Nat) : Except Error Header :=
  if data.length < 12 then .error .PARSE_TOO_SHORT
  else
    let flags := read16 data 2
    -- if (flags & Flags::Z) — bit 6 reserved, must be zero
    if flags / 64 % 2 = 1 then .error .PARSE_TRUNCATED
    else
      let opcode := flags / 2048 % 16
      if ¬(opcode = 0 ∨ opcode = 1 ∨ opcode = 2 ∨ opcode = 4 ∨ opcode = 5 ∨ opcode = 6) then
        .error .PARSE_BAD_OPCODE
      else
        -- if (!qr && (ra || aa)) — a stub must not claim server capabilities
        if flags / 32768 % 2 = 0 ∧ (flags / 128 % 2 = 1 ∨ flags / 1024 % 2 = 1) then
          .error .PARSE_TRUNCATED
        else
          let qdcount := read16 data 4
          let ancount := read16 data 6
          let nscount := read16 data 8
          let arcount := read16 data 10
          if flags / 32768 % 2 = 0 ∧ qdcount = 0 then .error .PARSE_BAD_QDCOUNT
          else if qdcount > 1 then .error .PARSE_BAD_QDCOUNT
          else if ancount > 500 ∨ nscount > 500 ∨ arcount > 500 then
            .error .PARSE_TRUNCATED
          else
            .ok { id := read16 data 0
                  qr := flags / 32768 % 2 == 1
                  opcode := opcode
                  aa := flags / 1024 % 2 == 1
                  tc := flags / 512 % 2 == 1
                  rd := flags / 256 % 2 == 1
                  ra := flags / 128 % 2 == 1
                  ad := flags / 32 % 2 == 1
                  cd := flags / 16 % 2 == 1
                  rcode := flags % 16
                  qdcount := qdcount
                  ancount := ancount
                  nscount := nscount
                  arcount := arcount }

/-- The flag word of a raw header, as `Header::decode` reads it. -/
def flagsOf (b : List Nat) : Nat := read16 b 2

/-- QR bit of a raw header: `(flags >> 15) & 0x1`. -/
def qrBit (b : List Nat) : Nat := flagsOf b / 32768 % 2

/-- AA bit of a raw header: `(flags & Flags::AA) != 0`. -/
def aaBit (b : List Nat) : Nat := flagsOf b / 1024 % 2

/-- RA bit of a raw header. -/
def raBit (b : List Nat) : Nat := flagsOf b / 128 % 2

/-- Reserved Z bit of a raw header. -/
def zBit (b : List Nat) : Nat := flagsOf b / 64 % 2

/-- Opcode field of a raw header. -/
def opcodeOf (b : List Nat) : Nat := flagsOf b / 2048 % 16

/-- QDCOUNT of a raw header. -/
def qdOf (b : List Nat) : Nat := read16 b 4

/-- ANCOUNT of a raw header. -/
def anOf (b : List Nat) : Nat := read16 b 6

/-- NSCOUNT of a raw header. -/
def nsOf (b : List Nat) : Nat := read16 b 8

/-- ARCOUNT of a raw header. -/
def arOf (b : List Nat) : Nat := read16 b 10

/-- The `DNS::Parser::Question` class: owner name plus raw QTYPE/QCLASS
values (`enum class` casts preserve the 16-bit value). -/
structure Question where
  qname : List Nat
  qtype : Nat
  qclass : Nat
deriving DecidableEq, Repr

/-- `Question::decode` (`parser.cpp:134-151`): name, then 4 more bytes. -/
def Question.decode (data : List Nat) (off : Nat) :
    Except Error (Question × Nat) :=
  match Name.decode data off with
  | .error e => .error e
  | .ok (nm, off') =>
    if off' + 4 > data.length then .error .PARSE_TRUNCATED
    else
      .ok ({ qname := nm, qtype := read16 data off', qclass := read16 data (off' + 2) },
           off' + 4)

/-- `Question::encode` (`parser.cpp:114-131`). -/
def Question.encode (q : Question) (table : Option Table) (base : Nat) :
    Except Error (List Nat × Option Table) :=
  match Name.encode q.qname table base with
  | .error e => .error e
  | .ok (nb, t') => .ok (nb ++ write16 q.qtype ++ write16 q.qclass, t')

/-- The `DNS::Parser::ResourceRecord` class. -/
structure ResourceRecord where
  name : List Nat
  rtype : Nat
  rclass : Nat
  ttl : Nat
  rdlength : Nat
  rdata : List Nat
deriving DecidableEq, Repr

/-- `ResourceRecord::decode` (`parser.cpp:258-291`).  Faithful to the source,
including its bounds check `offset + rdlength > len` made *before* the
cursor is advanced past the 10 fixed-size bytes: a declared RDLENGTH of up
to 10 bytes more than what remains after those fields is accepted, and the
C++ `std::vector` constructor then reads past the end of the datagram (the
list model truncates the read at the end instead). -/
def ResourceRecord.decode (data : List Nat) (off : Nat) :
    Except Error (ResourceRecord × Nat) :=
  match Name.decode data off with
  | .error e => .error e
  | .ok (nm, off') =>
    -- type + class + ttl + rdlength (10 bytes)
    if off' + 10 > data.length then .error .PARSE_TRUNCATED
    else
      let rdlength := read16 data (off' + 8)
      if off' + rdlength > data.length then .error .PARSE_TRUNCATED
      else
        .ok ({ name := nm
               rtype := read16 data off'
               rclass := read16 data (off' + 2)
               ttl := read32 data (off' + 4)
               rdlength := rdlength
               rdata := (data.drop (off' + 10)).take rdlength },
             off' + 10 + rdlength)

/-- `ResourceRecord::encode` (`parser.cpp:227-255`): RDLENGTH is always
derived from the actual RDATA size. -/
def ResourceRecord.encode (rr : ResourceRecord) (table : Option Table) (base : Nat) :
    Except Error (List Nat × Option Table) :=
  match Name.encode rr.name table base with
  | .error e => .error e
  | .ok (nb, t') =>
    .ok (nb ++ write16 rr.rtype ++ write16 rr.rclass ++ write32 rr.ttl ++
           write16 rr.rdata.length ++ rr.rdata, t')

/-- The `DNS::Parser::Message` bag: header plus the four sections. -/
structure Message where
  header : Header
  questions : List Question
  answers : List ResourceRecord
  authority : List ResourceRecord
  additional : List ResourceRecord
deriving DecidableEq, Repr

/-- The QDCOUNT-bounded question-decoding loop of `MessageParser::parse`. -/
def decodeQuestions (data : List Nat) : Nat → Nat → Except Error (List Question × Nat)
  | 0, off => .ok ([], off)
  | n + 1, off =>
    match Question.decode data off with
    | .error e => .error e
    | .ok (q, off') =>
      match decodeQuestions data n off' with
      | .error e => .error e
      | .ok (qs, off'') => .ok (q :: qs, off'')

/-- A count-bounded record-decoding loop of `MessageParser::parse`. -/
def decodeRecords (data : List Nat) : Nat → Nat → Except Error (List ResourceRecord × Nat)
  | 0, off => .ok ([], off)
  | n + 1, off =>
    match ResourceRecord.decode data off with
    | .error e => .error e
    | .ok (rr, off') =>
      match decodeRecords data n off' with
      | .error e => .error e
      | .ok (rrs, off'') => .ok (rr :: rrs, off'')

/-- `MessageParser::parse` (`parser.cpp:381-422`): size gates, header, then
the four sections sharing one cursor starting at offset 12. -/
def MessageParser.parse (data : List Nat) : Except Error Message :=
  if data.length < 12 then .error .PARSE_TOO_SHORT
  else if data.length > 4096 then .error .PARSE_TRUNCATED
  else
    match Header.decode data with
    | .error e => .error e
    | .ok hdr =>
      match decodeQuestions data hdr.qdcount 12 with
      | .error e => .error e
      | .ok (qs, o1) =>
        match decodeRecords data hdr.ancount o1 with
        | .error e => .error e
        | .ok (ans, o2) =>
          match decodeRecords data hdr.nscount o2 with
          | .error e => .error e
          | .ok (auth, o3) =>
            match decodeRecords data hdr.arcount o3 with
            | .error e => .error e
            | .ok (add, _) =>
              .ok { header := hdr, questions := qs, answers := ans,
                    authority := auth, additional := add }

/-- The question-encoding loop of `MessageParser::encode`, threading the
compression table; each name is told the current buffer length as its
datagram-absolute base offset. -/
def encodeQuestions : List Question → Table → List Nat → Except Error (List Nat × Table)
  | [], t, buf => .ok (buf, t)
  | q :: qs, t, buf =>
    match Question.encode q (some t) buf.length with
    | .error e => .error e
    | .ok (bytes, t') => encodeQuestions qs (t'.getD t) (buf ++ bytes)

/-- A record-encoding loop of `MessageParser::encode`. -/
def encodeRecords : List ResourceRecord → Table → List Nat → Except Error (List Nat × Table)
  | [], t, buf => .ok (buf, t)
  | rr :: rrs, t, buf =>
    match ResourceRecord.encode rr (some t) buf.length with
    | .error e => .error e
    | .ok (bytes, t') => encodeRecords rrs (t'.getD t) (buf ++ bytes)

/-- `MessageParser::encode` (`parser.cpp:425-476`): the four counts are
overwritten from the actual section lengths, then header and sections are
serialized with a single compression table. -/
def MessageParser.encode (msg : Message) : Except Error (List Nat) :=
  let hdr := { msg.header with
               qdcount := msg.questions.length
               ancount := msg.answers.length
               nscount := msg.authority.length
               arcount := msg.additional.length }
  match encodeQuestions msg.questions [] hdr.encode with
  | .error e => .error e
  | .ok (buf1, t1) =>
    match encodeRecords msg.answers t1 buf1 with
    | .error e => .error e
    | .ok (buf2, t2) =>
      match encodeRecords msg.authority t2 buf2 with
      | .error e => .error e
      | .ok (buf3, t3) =>
        match encodeRecords msg.additional t3 buf3 with
        | .error e => .error e
        | .ok (buf4, _) =>
          if buf4.length > 4096 then .error .ENCODE_OVERFLOW
          else .ok buf4

/-- Scanner behind `str.find("://")` in `Listener::stripSchema`
(`server.cpp:303-307`): the remainder after the first occurrence of
`"://"` (bytes 58 47 47), if any. -/
def schemaRest : List Nat → Option (List Nat)
  | 58 :: 47 :: 47 :: rest => some rest
  | _ :: rest => schemaRest rest
  | [] => none

/-- `Listener::stripSchema`: drop everything up to and including `"://"`. -/
def stripSchema (s : List Nat) : List Nat :=
  match schemaRest s with
  | some rest => rest
  | none => s

/-- `Listener::stripPathAndQuery` (`server.cpp:297-301`): truncate at the
first of `'/' '?' ':' '#'` (bytes 47 63 58 35). -/
def stripPathAndQuery (s : List Nat) : List Nat :=
  s.takeWhile (fun c => !(c == 47 || c == 63 || c == 58 || c == 35))

/-- `std::tolower` on a byte in the C locale: only `'A'..'Z'` change. -/
def toLowerByte (c : Nat) : Nat :=
  if 65 ≤ c ∧ c ≤ 90 then c + 32 else c

/-- The normalization prefix of `Listener::search` (`server.cpp:309-315`):
strip the schema, strip path/query/port/fragment, lowercase. -/
def normalizeHost (s : List Nat) : List Nat :=
  (stripPathAndQuery (stripSchema s)).map toLowerByte

/-- The remainder of `l` after its first `'.'`, if any — this is
`current.substr(dot + 1)` for `dot = current.find('.')`. -/
def afterDot : List Nat → Option (List Nat)
  | [] => none
  | c :: rest => if c = 46 then some rest else afterDot rest

/-- `blocklist_.contains(current)` on the modelled set. -/
def blocklistContains : List (List Nat) → List Nat → Bool
  | [], _ => false
  | x :: rest, s => if x = s then true else blocklistContains rest s

/-- The `while (true)` walk of `Listener::search` (`server.cpp:317-324`):
test the blocklist, else advance past the first dot.  `none` only on fuel
exhaustion; each step strictly shortens `current`, so the wrapper's fuel
`current.length + 1` suffices (`searchLoop_isSome`). -/
def searchLoop : Nat → List (List Nat) → List Nat → Option Bool
  | 0, _, _ => none
  | fuel + 1, bl, current =>
    if blocklistContains bl current then some true
    else
      match afterDot current with
      | none => some false
      | some rest => searchLoop fuel bl rest

/-- `Listener::search` (`server.cpp:309-325`): normalize, then walk up the
label hierarchy against the blocklist (an
`std::unordered_set<std::string>`, modelled as the list of its members). -/
def Listener.search (bl : List (List Nat)) (domain : List Nat) : Bool :=
  let current := normalizeHost domain
  (searchLoop (current.length + 1) bl current).getD false

/-- The in-place blocked-response mutation of `Listener::handleQuery`
(`server.cpp:150-194`): set QR and RA, zero the authority/additional header
counts, and either clear the answer count (HTTPS, type 65) or install the
single null-route answer (16 zero bytes for AAAA = type 28, else 4). -/
def synthesizeBlocked (msg : Message) (q : Question) : Message :=
  let hdr1 := { msg.header with qr := true, ra := true, nscount := 0, arcount := 0 }
  if q.qtype = 65 then
    { msg with header := { hdr1 with ancount := 0 } }
  else
    let rdlen : Nat := if q.qtype = 28 then 16 else 4
    let rr : ResourceRecord :=
      { name := q.qname, rtype := q.qtype, rclass := q.qclass, ttl := 0,
        rdlength := rdlen, rdata := List.replicate rdlen 0 }
    { msg with header := { hdr1 with ancount := 1 }, answers := [rr] }

-- "ads.com" / "sub.ads.com" as byte strings, and the S1 header bytes
example : Listener.search [[97, 100, 115, 46, 99, 111, 109]]
    [115, 117, 98, 46, 97, 100, 115, 46, 99, 111, 109] = true := by decide
example : Listener.search [[97, 100, 115, 46, 99, 111, 109]]
    [115, 117, 98, 46, 97, 100, 115, 46, 99, 111, 110] = false := by decide
example :
    MessageParser.parse
      [18, 52, 1, 0, 0, 1, 0, 0, 0, 0, 0, 0,
       6, 103, 111, 111, 103, 108, 101, 3, 99, 111, 109, 0, 0, 1, 0, 1] =
    .ok { header := { id := 4660, qr := false, opcode := 0, aa := false, tc := false,
                      rd := true, ra := false, ad := false, cd := false, rcode := 0,
                      qdcount := 1, ancount := 0, nscount := 0, arcount := 0 },
          questions := [{ qname := [103, 111, 111, 103, 108, 101, 46, 99, 111, 109],
                          qtype := 1, qclass := 1 }],
          answers := [], authority := [], additional := [] } := by decide
example :
    MessageParser.encode
      { header := { id := 4660, qr := false, opcode := 0, aa := false, tc := false,
                    rd := true, ra := false, ad := false, cd := false, rcode := 0,
                    qdcount := 1, ancount := 0, nscount := 0, arcount := 0 },
        questions := [{ qname := [103, 111, 111, 103, 108, 101, 46, 99, 111, 109],
                        qtype := 1, qclass := 1 }],
        answers := [], authority := [], additional := [] } =
    .ok [18, 52, 1, 0, 0, 1, 0, 0, 0, 0, 0, 0,
         6, 103, 111, 111, 103, 108, 101, 3, 99, 111, 109, 0, 0, 1, 0, 1] := by decide

/-- `"sub.ads.com"` as bytes. -/
def subAdsCom : List Nat := [115, 117, 98, 46, 97, 100, 115, 46, 99, 111, 109]

/-- A denylist holding exactly `"ads.com"`. -/
def adsDenylist : List (List Nat) := [[97, 100, 115, 46, 99, 111, 109]]

/-- The question `A? sub.ads.com IN`. -/
def qSubAds : Question := { qname := subAdsCom, qtype := 1, qclass := 1 }

/-- One 64-byte wire label: length byte 63 followed by 63 `'a'`s. -/
def label63 : List Nat := 63 :: List.replicate 63 97

/-- A 257-byte datagram holding one name of four 63-byte labels. -/
def c4Buf : List Nat := label63 ++ label63 ++ label63 ++ label63 ++ [0]

/-- The dotted form of that name: 255 bytes, so `Name::decode` accepts it,
yet its wire form is 257 bytes. -/
def c4Name : List Nat :=
  List.replicate 63 97 ++ 46 :: (List.replicate 63 97 ++ 46 ::
    (List.replicate 63 97 ++ 46 :: List.replicate 63 97))

/-- A 23-byte response datagram whose single answer record declares
RDLENGTH 5 although zero RDATA bytes remain after the 10 fixed fields. -/
def c1Input : List Nat :=
  [0, 0, 128, 0, 0, 0, 0, 1, 0, 0, 0, 0,
   0, 0, 1, 0, 1, 0, 0, 0, 0, 0, 5]

/-- The record `ResourceRecord::decode` produces from `c1Input` at offset 12:
RDLENGTH says 5 but only the bytes up to the datagram end exist. -/
def c1RR : ResourceRecord :=
  { name := [], rtype := 1, rclass := 1, ttl := 0, rdlength := 5, rdata := [] }

/-- What `MessageParser::parse` returns on `c1Input`. -/
def c1Msg : Message :=
  { header := { id := 0, qr := true, opcode := 0, aa := false, tc := false,
                rd := false, ra := false, ad := false, cd := false, rcode := 0,
                qdcount := 0, ancount := 1, nscount := 0, arcount := 0 },
    questions := [], answers := [c1RR], authority := [], additional := [] }

/-- A 40-byte query `A? sub.ads.com` (id 0xABCD, RD=1) carrying an EDNS OPT
pseudo-record in the additional section (ARCOUNT=1). -/
def c2Input : List Nat :=
  [171, 205, 1, 0, 0, 1, 0, 0, 0, 0, 0, 1,
   3, 115, 117, 98, 3, 97, 100, 115, 3, 99, 111, 109, 0, 0, 1, 0, 1,
   0, 0, 41, 16, 0, 0, 0, 0, 0, 0, 0]

/-- The parsed OPT pseudo-record of `c2Input`. -/
def c2Opt : ResourceRecord :=
  { name := [], rtype := 41, rclass := 4096, ttl := 0, rdlength := 0, rdata := [] }

/-- What `MessageParser::parse` returns on `c2Input`. -/
def c2Msg : Message :=
  { header := { id := 43981, qr := false, opcode := 0, aa := false, tc := false,
                rd := true, ra := false, ad := false, cd := false, rcode := 0,
                qdcount := 1, ancount := 0, nscount := 0, arcount := 1 },
    questions := [qSubAds], answers := [], authority := [], additional := [c2Opt] }

/-- A 29-byte query `A? sub.ads.com` whose flag word is 0x0103: RD=1 and a
nonzero RCODE nibble (3).  `Header::decode` accepts it — no check touches
the RCODE bits of a query. -/
def c3Input : List Nat :=
  [171, 205, 1, 3, 0, 1, 0, 0, 0, 0, 0, 0,
   3, 115, 117, 98, 3, 97, 100, 115, 3, 99, 111, 109, 0, 0, 1, 0, 1]

/-- What `MessageParser::parse` returns on `c3Input`. -/
def c3Msg : Message :=
  { header := { id := 43981, qr := false, opcode := 0, aa := false, tc := false,
                rd := true, ra := false, ad := false, cd := false, rcode := 3,
                qdcount := 1, ancount := 0, nscount := 0, arcount := 0 },
    questions := [qSubAds], answers := [], authority := [], additional := [] }

example : Name.decode c4Buf 0 = .ok (c4Name, 257) := by decide
example : c4Name.length = 255 := by decide
example : Name.encode c4Name none 0 = .error .ENCODE_NAME_TOO_LONG := by decide
example : ResourceRecord.decode c1Input 12 = .ok (c1RR, 28) := by decide
example : MessageParser.parse c1Input = .ok c1Msg := by decide
example : MessageParser.parse c2Input = .ok c2Msg := by decide
example : MessageParser.parse c3Input = .ok c3Msg := by decide
example : Listener.search adsDenylist subAdsCom = true := by decide
example : (MessageParser.encode (synthesizeBlocked c2Msg qSubAds)).map
    (fun out => read16 out 10) = .ok 1 := by decide
example : (synthesizeBlocked c3Msg qSubAds).header.rcode = 3 := by decide

/-- The loop variant of `Name::decode` dominates any fuel above it: with
`hops ≤ 20` and fuel exceeding `(21 - hops) * (len + 1) + (len + 1 - pos)`,
the loop finishes.  Each literal label strictly advances `pos`; each pointer
hop decrements `21 - hops` (the hop guard caps `hops` at 20). -/
theorem nameDecodeLoop_isSome (fuel : Nat) :
    ∀ (data : List Nat) (pos : Nat) (jumped : Bool) (hops off : Nat) (acc : List Nat),
      hops ≤ 20 →
      (21 - hops) * (data.length + 1) + (data.length + 1 - pos) < fuel →
      (nameDecodeLoop fuel data pos jumped hops off acc).isSome = true := by
  induction fuel with
  | zero =>
    intro data pos jumped hops off acc h20 hm
    omega
  | succ fuel ih =>
    intro data pos jumped hops off acc h20 hm
    simp only [nameDecodeLoop]
    split_ifs <;> try rfl
    all_goals refine ih _ _ _ _ _ _ (by omega) ?_
    all_goals interval_cases hops <;> omega

/-- C5 — `Name::decode` terminates on every input: the fuel
`22 * (len + 2)` used by `Name.decode` always suffices for the loop (first
conjunct, via the hop-capped variant: at most 20 pointer hops are ever
followed, the 21st returns `PARSE_PTR_LOOP`), and on the crafted two-byte
name whose compression pointer targets itself the decoder stops with
`PARSE_PTR_LOOP` after the hop counter passes 20, instead of looping
forever. -/
theorem c5_decode_terminates :
    (∀ (data : List Nat) (off : Nat),
      (nameDecodeLoop (22 * (data.length + 2)) data off false 0 off []).isSome = true)
    ∧ Name.decode [192, 0] 0 = .error .PARSE_PTR_LOOP := by
  constructor
  · intro data off
    apply nameDecodeLoop_isSome _ _ _ _ _ _ _ (by omega)
    have h := Nat.sub_le (data.length + 1) off
    omega
  · decide

/-- The 57-byte blocked response the code actually produces for `c2Input`:
ARCOUNT (bytes 10–11) is 1 and the parsed OPT pseudo-record is re-encoded
at bytes 45–56 (its root name compressed to a pointer). -/
def c2Out : List Nat :=
  [171, 205, 129, 128, 0, 1, 0, 1, 0, 0, 0, 1,
   3, 115, 117, 98, 3, 97, 100, 115, 3, 99, 111, 109, 0, 0, 1, 0, 1,
   192, 12, 0, 1, 0, 1, 0, 0, 0, 0, 0, 4, 0, 0, 0, 0,
   192, 24, 0, 41, 16, 0, 0, 0, 0, 0, 0, 0]

/-- C2 — the claim fails on the code: for the parsed query `c2Input`
(`A? sub.ads.com` with denylist hit and an EDNS OPT record in the
additional section), `Listener::handleQuery` only zeroes the header's
NSCOUNT/ARCOUNT fields, but `MessageParser::encode` overwrites the counts
from the still-populated section vectors and re-encodes them: the encoded
blocked response has ARCOUNT = 1 and carries the OPT record on the wire
(bytes 45–56 of `c2Out`). -/
theorem c2_additional_not_dropped :
    MessageParser.parse c2Input = .ok c2Msg ∧
    c2Msg.header.qr = false ∧
    c2Msg.questions = [qSubAds] ∧
    Listener.search adsDenylist qSubAds.qname = true ∧
    c2Msg.additional = [c2Opt] ∧
    (synthesizeBlocked c2Msg qSubAds).header.arcount = 0 ∧
    (synthesizeBlocked c2Msg qSubAds).additional = [c2Opt] ∧
    MessageParser.encode (synthesizeBlocked c2Msg qSubAds) = .ok c2Out ∧
    read16 c2Out 10 = 1 ∧
    c2Out.drop 45 = [192, 24, 0, 41, 16, 0, 0, 0, 0, 0, 0, 0] := by
  decide

/-- C1 — the claim fails on the code: `c1Input` is 23 bytes, its single
answer record declares RDLENGTH = 5 although 0 bytes remain after the 10
fixed-size fields (13 + 10 + 5 = 28 > 23), yet `ResourceRecord::decode`
accepts it (the bounds check `offset + rdlength > len` runs before the
cursor skips the 10 fixed bytes) and leaves the cursor at 28, past the
datagram end; `MessageParser::parse` succeeds instead of returning
`PARSE_TRUNCATED`.  In the C++ source the `std::vector` constructor then
reads 5 bytes beyond the buffer; the list model records the over-read as
`rdata` shorter than `rdlength`. -/
theorem c1_rdlength_overread :
    c1Input.length = 23 ∧
    ResourceRecord.decode c1Input 12 = .ok (c1RR, 28) ∧
    c1RR.rdlength = 5 ∧
    c1RR.rdata.length = 0 ∧
    MessageParser.parse c1Input = .ok c1Msg := by
  decide

/-- C4 (counterexample) — `Name::decode` can return a name whose wire form
exceeds 255 bytes: `c4Buf` decodes successfully to the 255-byte dotted name
`c4Name`, whose uncompressed wire encoding is 257 bytes (dotted length + 2)
— the repository's own `Name::encode` rejects it as `ENCODE_NAME_TOO_LONG`. -/
theorem c4_wire_over_255 :
    Name.decode c4Buf 0 = .ok (c4Name, 257) ∧
    c4Name.length = 255 ∧
    255 < c4Name.length + 2 ∧
    Name.encode c4Name none 0 = .error .ENCODE_NAME_TOO_LONG := by
  decide

/-- Labels acceptable to the decoder: nonempty and at most 63 bytes. -/
def labelsOk (ls : List (List Nat)) : Prop :=
  ∀ l ∈ ls, 1 ≤ l.length ∧ l.length ≤ 63

theorem dottedOf_append (ls : List (List Nat)) (l : List Nat) (h : ls ≠ []) :
    dottedOf (ls ++ [l]) = dottedOf ls ++ 46 :: l := by
  induction ls with
  | nil => exact absurd rfl h
  | cons a ls ih =>
    cases ls with
    | nil => simp [dottedOf]
    | cons b ls =>
      have ih' := ih (by simp)
      simp only [List.cons_append] at ih' ⊢
      simp only [dottedOf, ih']
      simp

/-- `dottedOf` of acceptable labels is empty only for the empty label list. -/
theorem dottedOf_eq_nil (ls : List (List Nat)) (hok : labelsOk ls)
    (h : dottedOf ls = []) : ls = [] := by
  cases ls with
  | nil => rfl
  | cons a ls =>
    exfalso
    cases ls with
    | nil =>
      simp only [dottedOf] at h
      have := hok a (by simp)
      rw [h] at this
      simp at this
    | cons b ls =>
      simp only [dottedOf] at h
      have hlen := congrArg List.length h
      simp only [List.length_append, List.length_cons, List.length_nil] at hlen
      omega

/-- Success invariant of the decode loop: starting from an accumulator that
is a dotted chain of acceptable labels and within 255 bytes, any successful
exit returns such a name. -/
theorem nameDecodeLoop_ok_shape (fuel : Nat) :
    ∀ (data : List Nat) (pos : Nat) (jumped : Bool) (hops off : Nat)
      (acc nm : List Nat) (off2 : Nat) (ls : List (List Nat)),
      acc = dottedOf ls → labelsOk ls → acc.length ≤ 255 →
      nameDecodeLoop fuel data pos jumped hops off acc = some (.ok (nm, off2)) →
      nm.length ≤ 255 ∧ ∃ ls', nm = dottedOf ls' ∧ labelsOk ls' := by
  induction fuel with
  | zero =>
    intro data pos jumped hops off acc nm off2 ls _ _ _ h
    exact absurd h (by simp [nameDecodeLoop])
  | succ fuel ih =>
    intro data pos jumped hops off acc nm off2 ls hacc hok h255 h
    simp only [nameDecodeLoop] at h
    split_ifs at h
    -- end of name: the returned name is the accumulator
    any_goals
      (simp only [Option.some.injEq, Except.ok.injEq, Prod.mk.injEq] at h
       obtain ⟨rfl, rfl⟩ := h
       exact ⟨h255, ls, hacc, hok⟩)
    -- pointer hops keep the accumulator unchanged
    any_goals exact ih _ _ _ _ _ _ _ _ ls hacc hok h255 h
    -- error exits
    any_goals exact Except.noConfusion (Option.some.inj h)
    -- literal-label steps
    all_goals rename_i hnil hfit
    all_goals
      (have hlab : ((data.drop (pos + 1)).take (byteAt data pos)).length
          = byteAt data pos := by
         rw [List.length_take, List.length_drop]
         omega)
    · -- first label: acc = [] forces ls = []
      refine ih _ _ _ _ _ _ _ _
        [(data.drop (pos + 1)).take (byteAt data pos)] (by simp [dottedOf]) ?_
        (by omega) h
      intro l hl
      simp only [List.mem_singleton] at hl
      subst hl
      omega
    · -- subsequent label: append it to the existing chain
      have hlsne : ls ≠ [] := by
        intro hcon
        subst hcon
        exact hnil (by simpa [dottedOf] using hacc)
      refine ih _ _ _ _ _ _ _ _
        (ls ++ [(data.drop (pos + 1)).take (byteAt data pos)]) ?_ ?_ (by omega) h
      · rw [dottedOf_append _ _ hlsne, ← hacc]
      · intro l hl
        simp only [List.mem_append, List.mem_singleton] at hl
        rcases hl with hl | hl
        · exact hok l hl
        · subst hl
          omega

/-- C4 (amended) — every name `Name::decode` returns has dotted length at
most 255 bytes and consists of wire labels of 1..63 bytes each (in
particular no empty labels and no label above 63 bytes); the wire-form
bound claimed by the spec is off by two (`c4_wire_over_255`). -/
theorem c4_decoded_name_shape (data : List Nat) (off : Nat) (nm : List Nat)
    (off2 : Nat) (h : Name.decode data off = .ok (nm, off2)) :
    nm.length ≤ 255 ∧ ∃ ls, nm = dottedOf ls ∧ labelsOk ls := by
  unfold Name.decode at h
  cases hl : nameDecodeLoop (22 * (data.length + 2)) data off false 0 off [] with
  | none => rw [hl] at h; exact absurd h (by simp)
  | some v =>
    rw [hl] at h
    simp only [Option.getD_some] at h
    subst h
    refine nameDecodeLoop_ok_shape _ _ _ _ _ _ _ _ _ [] rfl ?_ (by decide) hl
    intro l hl
    exact absurd hl (List.not_mem_nil l)

/-- Witness for `c4_decoded_name_shape` at the datagram `[1, 'a', 0]`. -/
theorem c4_decoded_name_shape_witness :
    Name.decode [1, 97, 0] 0 = .ok ([97], 3) ∧
    ([97] : List Nat).length ≤ 255 ∧ ∃ ls, [97] = dottedOf ls ∧ labelsOk ls :=
  ⟨by decide, c4_decoded_name_shape [1, 97, 0] 0 [97] 3 (by decide)⟩

/-- An error is not one of the two unreachable codes. -/
def notQtypeErr (e : Error) : Prop :=
  e ≠ .PARSE_BAD_QTYPE ∧ e ≠ .PARSE_BAD_QCLASS

theorem nameDecodeLoop_err (fuel : Nat) :
    ∀ (data : List Nat) (pos : Nat) (jumped : Bool) (hops off : Nat)
      (acc : List Nat) (e : Error),
      nameDecodeLoop fuel data pos jumped hops off acc = some (.error e) →
      notQtypeErr e := by
  induction fuel with
  | zero =>
    intro data pos jumped hops off acc e h
    exact absurd h (by simp [nameDecodeLoop])
  | succ fuel ih =>
    intro data pos jumped hops off acc e h
    simp only [nameDecodeLoop] at h
    split_ifs at h
    all_goals first
      | exact ih _ _ _ _ _ _ _ h
      | (obtain rfl := Except.error.inj (Option.some.inj h)
         exact ⟨by decide, by decide⟩)
      | exact Except.noConfusion (Option.some.inj h)

theorem nameDecode_err (data : List Nat) (off : Nat) (e : Error)
    (h : Name.decode data off = .error e) : notQtypeErr e := by
  unfold Name.decode at h
  cases hl : nameDecodeLoop (22 * (data.length + 2)) data off false 0 off [] with
  | none =>
    rw [hl] at h
    obtain rfl := Except.error.inj h
    exact ⟨by decide, by decide⟩
  | some v =>
    rw [hl] at h
    simp only [Option.getD_some] at h
    subst h
    exact nameDecodeLoop_err _ _ _ _ _ _ _ _ hl

theorem questionDecode_err (data : List Nat) (off : Nat) (e : Error)
    (h : Question.decode data off = .error e) : notQtypeErr e := by
  unfold Question.decode at h
  split at h
  · exact nameDecode_err _ _ _ (by rw [← Except.error.inj h]; assumption)
  · split_ifs at h
    obtain rfl := Except.error.inj h
    exact ⟨by decide, by decide⟩

theorem rrDecode_err (data : List Nat) (off : Nat) (e : Error)
    (h : ResourceRecord.decode data off = .error e) : notQtypeErr e := by
  simp only [ResourceRecord.decode] at h
  split at h
  · exact nameDecode_err _ _ _ (by rw [← Except.error.inj h]; assumption)
  · split_ifs at h
    all_goals
      (obtain rfl := Except.error.inj h
       exact ⟨by decide, by decide⟩)

theorem decodeQuestions_err (data : List Nat) :
    ∀ (n off : Nat) (e : Error),
      decodeQuestions data n off = .error e → notQtypeErr e := by
  intro n
  induction n with
  | zero =>
    intro off e h
    exact absurd h (by simp [decodeQuestions])
  | succ n ih =>
    intro off e h
    simp only [decodeQuestions] at h
    split at h
    · exact questionDecode_err _ _ _ (by rw [← Except.error.inj h]; assumption)
    · split at h
      · exact ih _ _ (by rw [← Except.error.inj h]; assumption)
      · exact Except.noConfusion h

theorem decodeRecords_err (data : List Nat) :
    ∀ (n off : Nat) (e : Error),
      decodeRecords data n off = .error e → notQtypeErr e := by
  intro n
  induction n with
  | zero =>
    intro off e h
    exact absurd h (by simp [decodeRecords])
  | succ n ih =>
    intro off e h
    simp only [decodeRecords] at h
    split at h
    · exact rrDecode_err _ _ _ (by rw [← Except.error.inj h]; assumption)
    · split at h
      · exact ih _ _ (by rw [← Except.error.inj h]; assumption)
      · exact Except.noConfusion h

theorem headerDecode_err (data : List Nat) (e : Error)
    (h : Header.decode data = .error e) : notQtypeErr e := by
  simp only [Header.decode] at h
  split_ifs at h
  all_goals
    (obtain rfl := Except.error.inj h
     exact ⟨by decide, by decide⟩)

/-- C10 — `PARSE_BAD_QTYPE` and `PARSE_BAD_QCLASS` are unreachable:
`Question::decode` and `ResourceRecord::decode` accept every 16-bit
QTYPE/QCLASS value without validation, so no error that
`MessageParser::parse` returns is ever one of those two codes. -/
theorem c10_qtype_errors_unreachable (data : List Nat) (e : Error)
    (h : MessageParser.parse data = .error e) :
    e ≠ .PARSE_BAD_QTYPE ∧ e ≠ .PARSE_BAD_QCLASS := by
  unfold MessageParser.parse at h
  split_ifs at h
  · obtain rfl := Except.error.inj h
    exact ⟨by decide, by decide⟩
  · obtain rfl := Except.error.inj h
    exact ⟨by decide, by decide⟩
  · split at h
    · exact headerDecode_err _ _ (by rw [← Except.error.inj h]; assumption)
    · split at h
      · exact decodeQuestions_err _ _ _ _ (by rw [← Except.error.inj h]; assumption)
      · split at h
        · exact decodeRecords_err _ _ _ _ (by rw [← Except.error.inj h]; assumption)
        · split at h
          · exact decodeRecords_err _ _ _ _ (by rw [← Except.error.inj h]; assumption)
          · split at h
            · exact decodeRecords_err _ _ _ _ (by rw [← Except.error.inj h]; assumption)
            · exact Except.noConfusion h

/-- Witness for `c10_qtype_errors_unreachable`: the empty datagram, on
which `parse` fails with `PARSE_TOO_SHORT`. -/
theorem c10_qtype_errors_unreachable_witness :
    MessageParser.parse [] = .error .PARSE_TOO_SHORT ∧
    Error.PARSE_TOO_SHORT ≠ Error.PARSE_BAD_QTYPE ∧
    Error.PARSE_TOO_SHORT ≠ Error.PARSE_BAD_QCLASS :=
  ⟨by decide, c10_qtype_errors_unreachable [] .PARSE_TOO_SHORT (by decide)⟩

theorem toNat_mod_two (n : Nat) : ((n % 2 == 1) : Bool).toNat = n % 2 := by
  rcases Nat.mod_two_eq_zero_or_one n with h | h <;> simp [h]

/-- With the Z bit clear, repacking the nine extracted fields of a 16-bit
flag word reproduces the word. -/
theorem rawFlags_recompose (f : Nat) (hf : f < 65536) (hz : f / 64 % 2 = 0) :
    f / 32768 % 2 * 32768 + f / 2048 % 16 % 16 * 2048 +
    f / 1024 % 2 * 1024 + f / 512 % 2 * 512 + f / 256 % 2 * 256 +
    f / 128 % 2 * 128 + f / 32 % 2 * 32 + f / 16 % 2 * 16 + f % 16 % 16 = f := by
  omega

/-- C6 — header round-trip: every 12-byte pattern that `Header::decode`
accepts is reproduced exactly by `Header::encode` of the decoded header.
The Z bit of an accepted pattern is zero and every other bit of the flag
word is captured in a field, so `getRawFlags` rebuilds the flag word and
the six 16-bit fields rebuild their big-endian bytes. -/
theorem c6_header_roundtrip (b : List Nat) (hlen : b.length = 12)
    (hbytes : ∀ x ∈ b, x < 256) (hd : Header)
    (h : Header.decode b = .ok hd) : Header.encode hd = b := by
  rcases b with _ | ⟨b0, b⟩
  · simp only [List.length_nil] at hlen; omega
  rcases b with _ | ⟨b1, b⟩
  · simp only [List.length_cons, List.length_nil] at hlen; omega
  rcases b with _ | ⟨b2, b⟩
  · simp only [List.length_cons, List.length_nil] at hlen; omega
  rcases b with _ | ⟨b3, b⟩
  · simp only [List.length_cons, List.length_nil] at hlen; omega
  rcases b with _ | ⟨b4, b⟩
  · simp only [List.length_cons, List.length_nil] at hlen; omega
  rcases b with _ | ⟨b5, b⟩
  · simp only [List.length_cons, List.length_nil] at hlen; omega
  rcases b with _ | ⟨b6, b⟩
  · simp only [List.length_cons, List.length_nil] at hlen; omega
  rcases b with _ | ⟨b7, b⟩
  · simp only [List.length_cons, List.length_nil] at hlen; omega
  rcases b with _ | ⟨b8, b⟩
  · simp only [List.length_cons, List.length_nil] at hlen; omega
  rcases b with _ | ⟨b9, b⟩
  · simp only [List.length_cons, List.length_nil] at hlen; omega
  rcases b with _ | ⟨b10, b⟩
  · simp only [List.length_cons, List.length_nil] at hlen; omega
  rcases b with _ | ⟨b11, b⟩
  · simp only [List.length_cons, List.length_nil] at hlen; omega
  rcases b with _ | ⟨bx, b⟩
  on_goal 2 => simp only [List.length_cons, List.length_nil] at hlen; omega
  have h0 : b0 < 256 := hbytes b0 (by simp)
  have h1 : b1 < 256 := hbytes b1 (by simp)
  have h2 : b2 < 256 := hbytes b2 (by simp)
  have h3 : b3 < 256 := hbytes b3 (by simp)
  have h4 : b4 < 256 := hbytes b4 (by simp)
  have h5 : b5 < 256 := hbytes b5 (by simp)
  have h6 : b6 < 256 := hbytes b6 (by simp)
  have h7 : b7 < 256 := hbytes b7 (by simp)
  have h8 : b8 < 256 := hbytes b8 (by simp)
  have h9 : b9 < 256 := hbytes b9 (by simp)
  have h10 : b10 < 256 := hbytes b10 (by simp)
  have h11 : b11 < 256 := hbytes b11 (by simp)
  have e0 : read16 [b0, b1, b2, b3, b4, b5, b6, b7, b8, b9, b10, b11] 0
      = b0 * 256 + b1 := rfl
  have e2 : read16 [b0, b1, b2, b3, b4, b5, b6, b7, b8, b9, b10, b11] 2
      = b2 * 256 + b3 := rfl
  have e4 : read16 [b0, b1, b2, b3, b4, b5, b6, b7, b8, b9, b10, b11] 4
      = b4 * 256 + b5 := rfl
  have e6 : read16 [b0, b1, b2, b3, b4, b5, b6, b7, b8, b9, b10, b11] 6
      = b6 * 256 + b7 := rfl
  have e8 : read16 [b0, b1, b2, b3, b4, b5, b6, b7, b8, b9, b10, b11] 8
      = b8 * 256 + b9 := rfl
  have e10 : read16 [b0, b1, b2, b3, b4, b5, b6, b7, b8, b9, b10, b11] 10
      = b10 * 256 + b11 := rfl
  simp only [Header.decode, e0, e2, e4, e6, e8, e10, List.length_cons,
    List.length_nil] at h
  generalize hgen : b2 * 256 + b3 = f at h
  split_ifs at h with hz hop hqraa hqd0 hqd1 hcaps
  obtain rfl := Except.ok.inj h
  have hf16 : f < 65536 := by omega
  have hz0 : f / 64 % 2 = 0 := by omega
  have hrec := rawFlags_recompose f hf16 hz0
  simp only [Header.encode, Header.getRawFlags, write16, toNat_mod_two,
    List.cons_append, List.nil_append, List.cons.injEq, and_true]
  refine ⟨?_, ?_, ?_, ?_, ?_, ?_, ?_, ?_, ?_, ?_, ?_, ?_⟩
  all_goals omega

/-- Witness for `c6_header_roundtrip` at the scenario-S1 header bytes. -/
theorem c6_header_roundtrip_witness :
    ([18, 52, 1, 0, 0, 1, 0, 0, 0, 0, 0, 0] : List Nat).length = 12 ∧
    (∀ x ∈ ([18, 52, 1, 0, 0, 1, 0, 0, 0, 0, 0, 0] : List Nat), x < 256) ∧
    Header.decode [18, 52, 1, 0, 0, 1, 0, 0, 0, 0, 0, 0] =
      .ok { id := 4660, qr := false, opcode := 0, aa := false, tc := false,
            rd := true, ra := false, ad := false, cd := false, rcode := 0,
            qdcount := 1, ancount := 0, nscount := 0, arcount := 0 } ∧
    Header.encode
      { id := 4660, qr := false, opcode := 0, aa := false, tc := false,
        rd := true, ra := false, ad := false, cd := false, rcode := 0,
        qdcount := 1, ancount := 0, nscount := 0, arcount := 0 } =
      [18, 52, 1, 0, 0, 1, 0, 0, 0, 0, 0, 0] :=
  ⟨by decide, by decide, by decide,
   c6_header_roundtrip _ (by decide) (by decide) _ (by decide)⟩

/-- C8 — `Header::decode` validation, with each rule stated under the
passing of the checks that precede it in the source (length, Z bit, opcode
whitelist come first; then query-side AA/RA, then the QDCOUNT rules, then
the section-count caps): a query (QR=0) with AA or RA set is rejected as
`PARSE_TRUNCATED`; a query with QDCOUNT=0, and any header with QDCOUNT>1,
as `PARSE_BAD_QDCOUNT`; and any header passing those whose ANCOUNT,
NSCOUNT or ARCOUNT exceeds 500 as `PARSE_TRUNCATED`. -/
theorem c8_header_validation (b : List Nat) (hlen : 12 ≤ b.length)
    (hz : zBit b = 0)
    (hop : opcodeOf b = 0 ∨ opcodeOf b = 1 ∨ opcodeOf b = 2 ∨
      opcodeOf b = 4 ∨ opcodeOf b = 5 ∨ opcodeOf b = 6) :
    (qrBit b = 0 ∧ (aaBit b = 1 ∨ raBit b = 1) →
      Header.decode b = .error .PARSE_TRUNCATED) ∧
    (qrBit b = 0 ∧ aaBit b = 0 ∧ raBit b = 0 ∧ qdOf b = 0 →
      Header.decode b = .error .PARSE_BAD_QDCOUNT) ∧
    ((qrBit b = 1 ∨ (aaBit b = 0 ∧ raBit b = 0)) ∧ qdOf b > 1 →
      Header.decode b = .error .PARSE_BAD_QDCOUNT) ∧
    ((qrBit b = 1 ∨ (aaBit b = 0 ∧ raBit b = 0)) ∧
      ¬(qrBit b = 0 ∧ qdOf b = 0) ∧ qdOf b ≤ 1 ∧
      (anOf b > 500 ∨ nsOf b > 500 ∨ arOf b > 500) →
      Header.decode b = .error .PARSE_TRUNCATED) := by
  simp only [qrBit, aaBit, raBit, zBit, opcodeOf, qdOf, anOf, nsOf, arOf,
    flagsOf] at *
  refine ⟨?_, ?_, ?_, ?_⟩ <;> intro hcond <;>
    simp only [Header.decode] <;> split_ifs <;> first | rfl | omega

/-- Witness for `c8_header_validation`: the all-zero header is a query
with QDCOUNT = 0 and is rejected as `PARSE_BAD_QDCOUNT`. -/
theorem c8_header_validation_witness :
    12 ≤ ([0, 0, 0, 0, 0, 0, 0, 0, 0, 0, 0, 0] : List Nat).length ∧
    zBit [0, 0, 0, 0, 0, 0, 0, 0, 0, 0, 0, 0] = 0 ∧
    opcodeOf [0, 0, 0, 0, 0, 0, 0, 0, 0, 0, 0, 0] = 0 ∧
    Header.decode [0, 0, 0, 0, 0, 0, 0, 0, 0, 0, 0, 0] =
      .error .PARSE_BAD_QDCOUNT :=
  ⟨by decide, by decide, by decide,
   (c8_header_validation [0, 0, 0, 0, 0, 0, 0, 0, 0, 0, 0, 0]
     (by decide) (by decide) (Or.inl (by decide))).2.1
     ⟨by decide, by decide, by decide, by decide⟩⟩

theorem afterDot_length (l r : List Nat) (h : afterDot l = some r) :
    r.length < l.length := by
  induction l with
  | nil => simp [afterDot] at h
  | cons c rest ih =>
    simp only [afterDot] at h
    split_ifs at h with hc
    · obtain rfl := Option.some.inj h
      simp
    · have := ih h
      simp only [List.length_cons]
      omega

theorem suffD_of_afterDot (l r : List Nat) (h : afterDot l = some r) :
    SuffD l r := by
  induction l with
  | nil => simp [afterDot] at h
  | cons c rest ih =>
    simp only [afterDot] at h
    split_ifs at h with hc
    · obtain rfl := Option.some.inj h
      exact ⟨[], by simp [hc]⟩
    · obtain ⟨pre, hpre⟩ := ih h
      exact ⟨c :: pre, by simp [hpre]⟩

theorem afterDot_none (l r : List Nat) (h : afterDot l = none) :
    ¬SuffD l r := by
  induction l with
  | nil =>
    rintro ⟨pre, hp⟩
    cases pre <;> simp at hp
  | cons c rest ih =>
    simp only [afterDot] at h
    split_ifs at h with hc
    rintro ⟨pre, hp⟩
    cases pre with
    | nil =>
      simp only [List.nil_append, List.cons.injEq] at hp
      exact hc hp.1
    | cons p pre' =>
      simp only [List.cons_append, List.cons.injEq] at hp
      exact ih h ⟨pre', hp.2⟩

theorem suffD_split_aux :
    ∀ (pre r2 r : List Nat), afterDot (pre ++ 46 :: r2) = some r →
      r2 = r ∨ SuffD r r2 := by
  intro pre
  induction pre with
  | nil =>
    intro r2 r h
    simp only [List.nil_append, afterDot, if_pos] at h
    exact Or.inl (Option.some.inj h)
  | cons c pre' ih =>
    intro r2 r h
    simp only [List.cons_append, afterDot] at h
    split_ifs at h with hc
    · exact Or.inr ⟨pre', (Option.some.inj h).symm⟩
    · exact ih r2 r h

theorem suffD_split (l r r2 : List Nat) (h : afterDot l = some r)
    (hs : SuffD l r2) : r2 = r ∨ SuffD r r2 := by
  obtain ⟨pre, rfl⟩ := hs
  exact suffD_split_aux pre r2 r h

theorem suffD_trans (l r x : List Nat) (h1 : SuffD l r) (h2 : SuffD r x) :
    SuffD l x := by
  obtain ⟨p1, rfl⟩ := h1
  obtain ⟨p2, rfl⟩ := h2
  exact ⟨p1 ++ 46 :: p2, by simp⟩

theorem blocklistContains_iff (bl : List (List Nat)) (s : List Nat) :
    blocklistContains bl s = true ↔ s ∈ bl := by
  induction bl with
  | nil => simp [blocklistContains]
  | cons x rest ih =>
    simp only [blocklistContains, List.mem_cons]
    split_ifs with hx
    · subst hx
      simp
    · rw [ih]
      constructor
      · exact Or.inr
      · rintro (rfl | hr)
        · exact absurd rfl hx
        · exact hr

theorem searchLoop_isSome (bl : List (List Nat)) :
    ∀ (fuel : Nat) (cur : List Nat), cur.length < fuel →
      (searchLoop fuel bl cur).isSome = true := by
  intro fuel
  induction fuel with
  | zero => intro cur h; omega
  | succ fuel ih =>
    intro cur h
    simp only [searchLoop]
    split_ifs
    · rfl
    · cases had : afterDot cur with
      | none => rfl
      | some rest =>
        have := afterDot_length cur rest had
        exact ih rest (by omega)

theorem searchLoop_true_iff (bl : List (List Nat)) :
    ∀ (fuel : Nat) (cur : List Nat), cur.length < fuel →
      (searchLoop fuel bl cur = some true ↔
        cur ∈ bl ∨ ∃ r, SuffD cur r ∧ r ∈ bl) := by
  intro fuel
  induction fuel with
  | zero => intro cur h; omega
  | succ fuel ih =>
    intro cur h
    simp only [searchLoop]
    split_ifs with hc
    · constructor
      · intro _
        exact Or.inl ((blocklistContains_iff bl cur).mp hc)
      · intro _
        rfl
    · have hnotin : cur ∉ bl := fun hmem =>
        hc ((blocklistContains_iff bl cur).mpr hmem)
      cases had : afterDot cur with
      | none =>
        constructor
        · intro hfalse
          exact absurd (Option.some.inj hfalse) (by simp)
        · rintro (hmem | ⟨r, hs, _⟩)
          · exact absurd hmem hnotin
          · exact absurd hs (afterDot_none cur r had)
      | some rest =>
        have hlen := afterDot_length cur rest had
        rw [ih rest (by omega)]
        constructor
        · rintro (hmem | ⟨x, hs, hx⟩)
          · exact Or.inr ⟨rest, suffD_of_afterDot cur rest had, hmem⟩
          · exact Or.inr ⟨x, suffD_trans _ _ _ (suffD_of_afterDot cur rest had) hs, hx⟩
        · rintro (hmem | ⟨r, hs, hr⟩)
          · exact absurd hmem hnotin
          · rcases suffD_split cur rest r had hs with rfl | hsr
            · exact Or.inl hr
            · exact Or.inr ⟨r, hsr, hr⟩

/-- C7 — `Listener::search` matches exactly when the normalized name or one
of its suffixes at a label boundary (the part after some `'.'`) is in the
denied set: the walk tests the full normalized name first and strips one
leading label per step. -/
theorem c7_suffix_match (bl : List (List Nat)) (n : List Nat) (hne : bl ≠ []) :
    Listener.search bl n = true ↔
      normalizeHost n ∈ bl ∨ ∃ r, SuffD (normalizeHost n) r ∧ r ∈ bl := by
  unfold Listener.search
  have hlen : (normalizeHost n).length < (normalizeHost n).length + 1 :=
    Nat.lt_succ_self _
  have hiff := searchLoop_true_iff bl ((normalizeHost n).length + 1)
    (normalizeHost n) hlen
  have hsome := searchLoop_isSome bl ((normalizeHost n).length + 1)
    (normalizeHost n) hlen
  cases hres : searchLoop ((normalizeHost n).length + 1) bl (normalizeHost n) with
  | none =>
    rw [hres] at hsome
    simp at hsome
  | some v =>
    rw [hres] at hiff
    cases v with
    | false =>
      simp only [hres, Option.getD_some]
      constructor
      · intro hfalse
        cases hfalse
      · intro hr
        exact absurd (hiff.mpr hr) (by simp)
    | true =>
      simp only [hres, Option.getD_some]
      constructor
      · intro _
        exact hiff.mp rfl
      · intro _
        trivial

/-- Witness for `c7_suffix_match` with denylist `{"ads.com"}` and the name
`"sub.ads.com"`. -/
theorem c7_suffix_match_witness :
    adsDenylist ≠ [] ∧
    (Listener.search adsDenylist subAdsCom = true ↔
      normalizeHost subAdsCom ∈ adsDenylist ∨
        ∃ r, SuffD (normalizeHost subAdsCom) r ∧ r ∈ adsDenylist) :=
  ⟨by decide, c7_suffix_match adsDenylist subAdsCom (by decide)⟩

/-- `MessageParser::parse` installs exactly the header `Header::decode`
produced. -/
theorem parse_header (data : List Nat) (msg : Message)
    (h : MessageParser.parse data = .ok msg) :
    Header.decode data = .ok msg.header := by
  unfold MessageParser.parse at h
  split_ifs at h
  split at h
  · exact Except.noConfusion h
  · rename_i hdr heq
    split at h
    · exact Except.noConfusion h
    · split at h
      · exact Except.noConfusion h
      · split at h
        · exact Except.noConfusion h
        · split at h
          · exact Except.noConfusion h
          · obtain rfl := Except.ok.inj h
            exact heq

/-- A header that `Header::decode` accepted with QR=0 has AA=0 and RA=0
(the query-side check). -/
theorem headerDecode_query_flags (b : List Nat) (hd : Header)
    (h : Header.decode b = .ok hd) (hq : hd.qr = false) :
    hd.aa = false ∧ hd.ra = false := by
  simp only [Header.decode] at h
  split_ifs at h with h1 h2 h3 h4 h5 h6
  obtain rfl := Except.ok.inj h
  dsimp only at hq ⊢
  rw [beq_eq_false_iff_ne] at hq
  constructor <;> rw [beq_eq_false_iff_ne] <;> omega

/-- C3 (amended) — for every parsed query (QR=0) with a denylist-matching
question, the synthesized blocked response has QR=1, RA=1, AA=0, and its
RD bit, transaction id *and RCODE* are echoed from the incoming query.
AA=0 holds because `Header::decode` rejects queries with AA set; RCODE is
not forced to NOERROR — it is whatever the query carried
(`c3_rcode_echoed` shows a query whose RCODE nibble is 3 yielding a
blocked response with RCODE=3). -/
theorem c3_blocked_header (data : List Nat) (msg : Message) (q : Question)
    (bl : List (List Nat)) (hp : MessageParser.parse data = .ok msg)
    (hqr : msg.header.qr = false) (hmem : q ∈ msg.questions)
    (hs : Listener.search bl q.qname = true) :
    (synthesizeBlocked msg q).header.qr = true ∧
    (synthesizeBlocked msg q).header.ra = true ∧
    (synthesizeBlocked msg q).header.aa = false ∧
    (synthesizeBlocked msg q).header.rd = msg.header.rd ∧
    (synthesizeBlocked msg q).header.id = msg.header.id ∧
    (synthesizeBlocked msg q).header.rcode = msg.header.rcode := by
  have hhdr := parse_header data msg hp
  have haa := headerDecode_query_flags data msg.header hhdr hqr
  unfold synthesizeBlocked
  split_ifs <;> simp [haa.1]

/-- C3 (counterexample) — the blocked response does not force
RCODE=NOERROR: `c3Input` is an accepted query whose flag word carries
RCODE=3, and the synthesized blocked response echoes RCODE=3. -/
theorem c3_rcode_echoed :
    MessageParser.parse c3Input = .ok c3Msg ∧
    c3Msg.header.qr = false ∧
    c3Msg.questions = [qSubAds] ∧
    Listener.search adsDenylist qSubAds.qname = true ∧
    (synthesizeBlocked c3Msg qSubAds).header.rcode = 3 ∧
    c3Msg.header.rcode = 3 := by
  decide

/-- Witness for `c3_blocked_header` at the concrete query `c3Input`. -/
theorem c3_blocked_header_witness :
    MessageParser.parse c3Input = .ok c3Msg ∧
    c3Msg.header.qr = false ∧
    qSubAds ∈ c3Msg.questions ∧
    Listener.search adsDenylist qSubAds.qname = true ∧
    ((synthesizeBlocked c3Msg qSubAds).header.qr = true ∧
     (synthesizeBlocked c3Msg qSubAds).header.ra = true ∧
     (synthesizeBlocked c3Msg qSubAds).header.aa = false ∧
     (synthesizeBlocked c3Msg qSubAds).header.rd = c3Msg.header.rd ∧
     (synthesizeBlocked c3Msg qSubAds).header.id = c3Msg.header.id ∧
     (synthesizeBlocked c3Msg qSubAds).header.rcode = c3Msg.header.rcode) :=
  ⟨by decide, by decide, by decide, by decide,
   c3_blocked_header c3Input c3Msg qSubAds adsDenylist
     (by decide) (by decide) (by decide) (by decide)⟩

theorem mem_dotSuffixes_iff (s r : List Nat) :
    r ∈ dotSuffixes s ↔ SuffD s r := by
  induction s with
  | nil =>
    simp only [dotSuffixes, List.not_mem_nil, false_iff]
    rintro ⟨pre, hp⟩
    cases pre <;> simp at hp
  | cons c rest ih =>
    simp only [dotSuffixes]
    split_ifs with hc
    · subst hc
      simp only [List.mem_cons]
      constructor
      · rintro (rfl | hmem)
        · exact ⟨[], rfl⟩
        · obtain ⟨pre, hp⟩ := ih.mp hmem
          exact ⟨46 :: pre, by simp [hp]⟩
      · rintro ⟨pre, hp⟩
        cases pre with
        | nil =>
          simp only [List.nil_append, List.cons.injEq] at hp
          exact Or.inl hp.2.symm
        | cons p pre2 =>
          simp only [List.cons_append, List.cons.injEq] at hp
          exact Or.inr (ih.mpr ⟨pre2, hp.2⟩)
    · rw [ih]
      constructor
      · rintro ⟨pre, hp⟩
        exact ⟨c :: pre, by simp [hp]⟩
      · rintro ⟨pre, hp⟩
        cases pre with
        | nil =>
          simp only [List.nil_append, List.cons.injEq] at hp
          exact absurd hp.1 hc
        | cons p pre2 =>
          simp only [List.cons_append, List.cons.injEq] at hp
          exact ⟨pre2, hp.2⟩

theorem splitFirstDot_some_eq (s : List Nat) :
    ∀ (l r : List Nat), splitFirstDot s = (l, some r) → s = l ++ 46 :: r := by
  induction s with
  | nil =>
    intro l r h
    simp [splitFirstDot] at h
  | cons c rest ih =>
    intro l r h
    simp only [splitFirstDot] at h
    split_ifs at h with hc
    · simp only [Prod.mk.injEq] at h
      obtain ⟨rfl, hr⟩ := h
      obtain rfl := Option.some.inj hr
      simp [hc]
    · cases hsp : splitFirstDot rest with
      | mk l2 r2 =>
        rw [hsp] at h
        simp only [Prod.mk.injEq] at h
        obtain ⟨rfl, h2⟩ := h
        cases r2 with
        | none => exact absurd h2 (by simp)
        | some rr =>
          obtain rfl := Option.some.inj h2
          have := ih l2 rr hsp
          simp [this]

/-- `Name::encode` walking a suffix none of whose nonempty walked suffixes
is registered, over a table that maps the empty suffix to `p`: the name
ends with the two-byte pointer encoding of `p` (the early return that
skips both the terminating zero and the length check). -/
theorem nameEncodeLoop_hits_root (fuel : Nat) :
    ∀ (remaining : List Nat) (t : Table) (curOff p : Nat)
      (bytes : List Nat) (tf : Option Table) (pt : Bool),
      tableFind t [] = some p →
      (∀ r, (r = remaining ∨ r ∈ dotSuffixes remaining) → r ≠ [] →
        tableFind t r = none) →
      nameEncodeLoop fuel remaining (some t) curOff = some (.ok (bytes, tf, pt)) →
      pt = true ∧ ∃ pre, bytes = pre ++ [192 + p / 256 % 64, p % 256] := by
  induction fuel with
  | zero =>
    intro remaining t curOff p bytes tf pt _ _ h
    exact absurd h (by simp [nameEncodeLoop])
  | succ fuel ih =>
    intro remaining t curOff p bytes tf pt hroot hfresh h
    rcases remaining with _ | ⟨c, rest⟩
    · simp only [nameEncodeLoop, hroot] at h
      simp only [Option.some.injEq, Except.ok.injEq, Prod.mk.injEq] at h
      obtain ⟨rfl, _, rfl⟩ := h
      exact ⟨rfl, [], rfl⟩
    · have hmiss : tableFind t (c :: rest) = none :=
        hfresh _ (Or.inl rfl) (by simp)
      simp only [nameEncodeLoop, hmiss] at h
      cases hsp : splitFirstDot (c :: rest) with
      | mk lab restOpt =>
        rw [hsp] at h
        split_ifs at h with hbad
        · exact absurd (Option.some.inj h) (by simp)
        · split at h
          · exact absurd h (by simp)
          · exact absurd (Option.some.inj h) (by simp)
          · rename_i bytes2 tf2 pt2 heq
            simp only [Option.some.injEq, Except.ok.injEq, Prod.mk.injEq] at h
            obtain ⟨rfl, rfl, rfl⟩ := h
            have hstep : ∀ r, (r = restOpt.getD [] ∨ r ∈ dotSuffixes (restOpt.getD [])) →
                r ≠ [] → tableFind ((c :: rest, curOff) :: t) r = none := by
              intro r hr hne
              cases restOpt with
              | none =>
                simp only [Option.getD_none] at hr
                rcases hr with rfl | hmem
                · exact absurd rfl hne
                · exact absurd hmem (List.not_mem_nil r)
              | some rr =>
                simp only [Option.getD_some] at hr
                have hsub : SuffD (c :: rest) rr :=
                  ⟨lab, splitFirstDot_some_eq _ _ _ hsp⟩
                have hsd : SuffD (c :: rest) r := by
                  rcases hr with rfl | hmem
                  · exact hsub
                  · exact suffD_trans _ _ _ hsub ((mem_dotSuffixes_iff _ _).mp hmem)
                have hlt : r.length < (c :: rest).length := by
                  obtain ⟨pre, hp⟩ := hsd
                  have := congrArg List.length hp
                  simp only [List.length_cons, List.length_append] at this
                  simp only [List.length_cons]
                  omega
                have hneq : ¬(c :: rest = r) := by
                  intro hcon
                  rw [← hcon] at hlt
                  omega
                simp only [tableFind, if_neg hneq]
                exact hfresh r (Or.inr ((mem_dotSuffixes_iff _ _).mpr hsd)) hne
            have hroot2 : tableFind ((c :: rest, curOff) :: t) [] = some p := by
              simp only [tableFind, if_neg (by simp : ¬(c :: rest = ([] : List Nat)))]
              exact hroot
            obtain ⟨hpt, pre, hpre⟩ :=
              ih (restOpt.getD []) ((c :: rest, curOff) :: t)
                (curOff + 1 + lab.length) p bytes2 tf2 pt2 hroot2 hstep heq
            refine ⟨hpt, lab.length :: (lab ++ pre), ?_⟩
            simp [hpre]

/-- `Name::encode` walking a suffix over a table in which neither the
walked suffixes nor the empty suffix is registered: the emitted bytes end
with a literal zero byte, and the final table maps the empty suffix to the
absolute offset of that zero byte. -/
theorem nameEncodeLoop_fresh (fuel : Nat) :
    ∀ (remaining : List Nat) (t : Table) (curOff : Nat)
      (bytes : List Nat) (tf : Option Table) (pt : Bool),
      (∀ r, (r = remaining ∨ r ∈ dotSuffixes remaining ∨ r = []) →
        tableFind t r = none) →
      nameEncodeLoop fuel remaining (some t) curOff = some (.ok (bytes, tf, pt)) →
      pt = false ∧ (∃ pre, bytes = pre ++ [0]) ∧
        ∃ tl, tf = some tl ∧ tableFind tl [] = some (curOff + bytes.length - 1) := by
  induction fuel with
  | zero =>
    intro remaining t curOff bytes tf pt _ h
    exact absurd h (by simp [nameEncodeLoop])
  | succ fuel ih =>
    intro remaining t curOff bytes tf pt hfresh h
    rcases remaining with _ | ⟨c, rest⟩
    · have hmiss : tableFind t [] = none := hfresh [] (Or.inr (Or.inr rfl))
      simp only [nameEncodeLoop, hmiss] at h
      simp only [Option.some.injEq, Except.ok.injEq, Prod.mk.injEq] at h
      obtain ⟨rfl, rfl, rfl⟩ := h
      exact ⟨rfl, ⟨[], rfl⟩, ([], curOff) :: t, rfl, by simp [tableFind]⟩
    · have hmiss : tableFind t (c :: rest) = none := hfresh _ (Or.inl rfl)
      simp only [nameEncodeLoop, hmiss] at h
      cases hsp : splitFirstDot (c :: rest) with
      | mk lab restOpt =>
        rw [hsp] at h
        split_ifs at h with hbad
        · exact absurd (Option.some.inj h) (by simp)
        · split at h
          · exact absurd h (by simp)
          · exact absurd (Option.some.inj h) (by simp)
          · rename_i bytes2 tf2 pt2 heq
            simp only [Option.some.injEq, Except.ok.injEq, Prod.mk.injEq] at h
            obtain ⟨rfl, rfl, rfl⟩ := h
            have hstep : ∀ r, (r = restOpt.getD [] ∨ r ∈ dotSuffixes (restOpt.getD []) ∨
                r = []) → tableFind ((c :: rest, curOff) :: t) r = none := by
              intro r hr
              have hrt : tableFind t r = none := by
                cases restOpt with
                | none =>
                  simp only [Option.getD_none] at hr
                  rcases hr with rfl | hmem | rfl
                  · exact hfresh [] (Or.inr (Or.inr rfl))
                  · exact absurd hmem (List.not_mem_nil r)
                  · exact hfresh [] (Or.inr (Or.inr rfl))
                | some rr =>
                  simp only [Option.getD_some] at hr
                  have hsub : SuffD (c :: rest) rr :=
                    ⟨lab, splitFirstDot_some_eq _ _ _ hsp⟩
                  rcases hr with rfl | hmem | rfl
                  · exact hfresh r
                      (Or.inr (Or.inl ((mem_dotSuffixes_iff _ _).mpr hsub)))
                  · exact hfresh r (Or.inr (Or.inl ((mem_dotSuffixes_iff _ _).mpr
                      (suffD_trans _ _ _ hsub ((mem_dotSuffixes_iff _ _).mp hmem)))))
                  · exact hfresh [] (Or.inr (Or.inr rfl))
              have hneq : ¬(c :: rest = r) := by
                intro hcon
                subst hcon
                cases restOpt with
                | none =>
                  simp only [Option.getD_none] at hr
                  rcases hr with hfoo | hmem | hfoo
                  · simp at hfoo
                  · simp [dotSuffixes] at hmem
                  · simp at hfoo
                | some rr =>
                  simp only [Option.getD_some] at hr
                  have hsub : SuffD (c :: rest) rr :=
                    ⟨lab, splitFirstDot_some_eq _ _ _ hsp⟩
                  have hlt : ∀ x, SuffD (c :: rest) x → x.length < (c :: rest).length := by
                    rintro x ⟨pre, hp⟩
                    have := congrArg List.length hp
                    simp only [List.length_cons, List.length_append] at this ⊢
                    omega
                  rcases hr with heqr | hmem | heqr
                  · have := hlt rr hsub
                    rw [heqr] at this
                    omega
                  · have := hlt (c :: rest) (suffD_trans _ _ _ hsub
                      ((mem_dotSuffixes_iff _ _).mp hmem))
                    omega
                  · simp at heqr
              simp only [tableFind, if_neg hneq]
              exact hrt
            obtain ⟨hpt, ⟨pre, hpre⟩, tl, htl, hfind⟩ :=
              ih (restOpt.getD []) ((c :: rest, curOff) :: t)
                (curOff + 1 + lab.length) bytes2 tf2 pt2 hstep heq
            refine ⟨hpt, ⟨lab.length :: (lab ++ pre), by simp [hpre]⟩, tl, htl, ?_⟩
            rw [hfind]
            have hblen : bytes2.length = pre.length + 1 := by
              rw [hpre]
              simp
            simp only [List.length_cons, List.length_append]
            congr 1
            omega

/-- C9 — `Name::encode` registers the empty suffix like any other suffix.
Part 1: the first name emitted into an empty compression table ends with a
literal zero byte, and the final table maps the empty suffix to the
absolute offset of that zero byte.  Part 2: any later name encoded over a
table that maps the empty suffix to `p` and none of whose own walked
nonempty suffixes is registered ends with the two-byte compression pointer
`0xC0 | (p >> 8), p & 0xFF` to that first terminating zero instead of a
zero byte of its own. -/
theorem c9_empty_suffix_compression :
    (∀ (name : List Nat) (base : Nat) (bytes : List Nat) (tf : Option Table),
      Name.encode name (some []) base = .ok (bytes, tf) →
      (∃ pre, bytes = pre ++ [0]) ∧
        ∃ tl, tf = some tl ∧ tableFind tl [] = some (base + bytes.length - 1)) ∧
    (∀ (name : List Nat) (t : Table) (base p : Nat) (bytes : List Nat)
       (tf : Option Table),
      tableFind t [] = some p →
      (∀ r, (r = name ∨ r ∈ dotSuffixes name) → r ≠ [] → tableFind t r = none) →
      Name.encode name (some t) base = .ok (bytes, tf) →
      ∃ pre, bytes = pre ++ [192 + p / 256 % 64, p % 256]) := by
  constructor
  · intro name base bytes tf h
    unfold Name.encode at h
    split at h
    · exact Except.noConfusion h
    · exact Except.noConfusion h
    · rename_i buf tfx pt heq
      split_ifs at h
      obtain ⟨rfl, rfl⟩ : buf = bytes ∧ tfx = tf := by
        simpa using h
      obtain ⟨_, hzero, tl, htl, hfind⟩ :=
        nameEncodeLoop_fresh (name.length + 1) name [] base buf tfx pt
          (fun r _ => rfl) heq
      exact ⟨hzero, tl, htl, hfind⟩
  · intro name t base p bytes tf hroot hfresh h
    unfold Name.encode at h
    split at h
    · exact Except.noConfusion h
    · exact Except.noConfusion h
    · rename_i buf tfx pt heq
      split_ifs at h
      obtain ⟨rfl, rfl⟩ : buf = bytes ∧ tfx = tf := by
        simpa using h
      exact (nameEncodeLoop_hits_root (name.length + 1) name t base p buf tfx pt
        hroot hfresh heq).2

/-- Witness for `c9_empty_suffix_compression`: the name `"a"` encoded into
an empty table at base 12 ends with a zero byte and registers the empty
suffix at offset 14; the name `"c"` encoded over a table holding the empty
suffix at offset 24 ends with the pointer bytes `[192, 24]`. -/
theorem c9_empty_suffix_compression_witness :
    Name.encode [97] (some []) 12 =
      .ok ([1, 97, 0], some [([], 14), ([97], 12)]) ∧
    ((∃ pre, ([1, 97, 0] : List Nat) = pre ++ [0]) ∧
      ∃ tl, (some [([], 14), ([97], 12)] : Option Table) = some tl ∧
        tableFind tl [] = some (12 + ([1, 97, 0] : List Nat).length - 1)) ∧
    tableFind [([], 24)] [] = some 24 ∧
    Name.encode [99] (some [([], 24)]) 30 =
      .ok ([1, 99, 192, 24], some [([99], 30), ([], 24)]) ∧
    (∃ pre, ([1, 99, 192, 24] : List Nat) = pre ++ [192 + 24 / 256 % 64, 24 % 256]) :=
  ⟨by decide,
   c9_empty_suffix_compression.1 [97] 12 [1, 97, 0]
     (some [([], 14), ([97], 12)]) (by decide),
   by decide,
   by decide,
   c9_empty_suffix_compression.2 [99] [([], 24)] 30 24 [1, 99, 192, 24]
     (some [([99], 30), ([], 24)]) (by decide)
     (by intro r hr hne
         rcases hr with rfl | hmem
         · decide
         · simp [dotSuffixes] at hmem)
     (by decide)⟩
